import Mathlib

/-!
Shallow embedding of the two container templates of the repository:
`QCircularBuffer` (src/list/QCircularBuffer.hpp) and `QLinkedHash`
(src/list/QLinkedHash.hpp).

Modelling conventions:
* `size_t` / `int` become `Nat` / `Int`, with `% ...` written explicitly
  where the source computes a modulus.
* `QVector<T>` (fixed length, set at construction) becomes a `List T`
  whose length is the capacity; element assignment is `List.set`.
* The throwing positional accessors of the ring buffer return `Option`:
  `none` stands for the thrown `std::out_of_range`, and since the model is
  pure, a failed access leaves the original state untouched.
* `QHash<Key, T>` becomes an association list `List (Key × T)`;
  `QHash::insert`-style assignment replaces the entry in place when the key
  is present and appends otherwise, and removal drops the (unique) entry.
* `QList<Key>::insert(i, x)` follows the release-mode `QListData::insert`
  semantics: the index is clamped, so `i ≥ size` appends
  (`qListInsert i x l = l.take i ++ x :: l.drop i`, which clamps the same
  way).  `QList::removeOne` erases the first occurrence,
  `QList::indexOf` returns `-1` when the element is absent.
-/

structure QCircularBuffer (T : Type) where
  m_buffer : List T
  m_start : Nat
  m_size : Nat
deriving DecidableEq

namespace QCircularBuffer

variable {T : Type}

/-- `QCircularBuffer(size_t capacity)`: `m_buffer(capacity), m_start(0), m_size(0)`;
`QVector(capacity)` default-constructs `capacity` elements. -/
def mkBuf (capacity : Nat) [Inhabited T] : QCircularBuffer T :=
  ⟨List.replicate capacity default, 0, 0⟩

/-- `size_t size() const { return m_size; }` -/
def size (b : QCircularBuffer T) : Nat := b.m_size

/-- `bool isEmpty() { return m_size == 0; }` -/
def isEmpty (b : QCircularBuffer T) : Bool := b.m_size == 0

/-- `bool isFull() { return m_size == m_buffer.size(); }` -/
def isFull (b : QCircularBuffer T) : Bool := b.m_size == b.m_buffer.length

/-- The in-bounds read `m_buffer[(m_start + idx) % m_buffer.size()]`
performed by both `operator[]` overloads after their range check. -/
def readAt [Inhabited T] (b : QCircularBuffer T) (idx : Nat) : T :=
  b.m_buffer.getD ((b.m_start + idx) % b.m_buffer.length) default

/-- `const T& operator[](size_t idx) const`: throws (`none`) when
`idx >= m_size`, otherwise returns `m_buffer[(m_start + idx) % m_buffer.size()]`. -/
def get [Inhabited T] (b : QCircularBuffer T) (idx : Nat) : Option T :=
  if b.m_size ≤ idx then none else some (b.readAt idx)

/-- `T& operator[](size_t idx)` used as an lvalue (`buf[idx] = v`): throws
(`none`) when `idx >= m_size`, otherwise assigns through the returned
reference to the physical slot `(m_start + idx) % m_buffer.size()`. -/
def set (b : QCircularBuffer T) (idx : Nat) (v : T) : Option (QCircularBuffer T) :=
  if b.m_size ≤ idx then none
  else some { b with m_buffer := b.m_buffer.set ((b.m_start + idx) % b.m_buffer.length) v }

/-- `void clear() { m_size = 0; m_start = 0; }` (storage untouched). -/
def clear (b : QCircularBuffer T) : QCircularBuffer T :=
  { b with m_size := 0, m_start := 0 }

/-- `void remove_front()`: returns early if empty, otherwise
`m_start = (m_start + 1) % m_buffer.size(); --m_size;`. -/
def remove_front (b : QCircularBuffer T) : QCircularBuffer T :=
  if b.isEmpty then b
  else { b with m_start := (b.m_start + 1) % b.m_buffer.length, m_size := b.m_size - 1 }

/-- `void push_back(const T& val)`: no-op on a zero-capacity buffer; when not
full, writes at `(m_start + m_size) % m_buffer.size()` and increments
`m_size`; when full, overwrites `m_buffer[m_start]` and advances `m_start`. -/
def push_back (b : QCircularBuffer T) (v : T) : QCircularBuffer T :=
  if b.m_buffer.isEmpty then b
  else if b.m_size < b.m_buffer.length then
    { b with m_buffer := b.m_buffer.set ((b.m_start + b.m_size) % b.m_buffer.length) v,
             m_size := b.m_size + 1 }
  else
    { b with m_buffer := b.m_buffer.set b.m_start v,
             m_start := (b.m_start + 1) % b.m_buffer.length }

/-- `QList<T> front(size_t n)`: `n` is unsigned, so the `n <= 0` test is
`n = 0`; the effective count is `m_size` for `n = 0` and `min n m_size`
otherwise, and the loop reads logical indices `0, …, count-1`. -/
def front [Inhabited T] (b : QCircularBuffer T) (n : Nat) : List T :=
  (List.range (if n = 0 then b.m_size else min n b.m_size)).map b.readAt

/-- `QList<T> back(size_t n)`: same count normalisation as `front`; the loop
runs `_i` from `m_size - count` to `m_size - 1`. -/
def back [Inhabited T] (b : QCircularBuffer T) (n : Nat) : List T :=
  (List.range (if n = 0 then b.m_size else min n b.m_size)).map
    (fun i => b.readAt (b.m_size - (if n = 0 then b.m_size else min n b.m_size) + i))

/-- The logical contents of the buffer: the valid window read in logical
order (what `front()` with the default argument returns). -/
def contents [Inhabited T] (b : QCircularBuffer T) : List T :=
  (List.range b.m_size).map b.readAt

/-- A sequence of `push_back` calls, in order. -/
def pushAll (b : QCircularBuffer T) (vs : List T) : QCircularBuffer T :=
  vs.foldl push_back b

/-- Structural well-formedness maintained by every public operation:
the valid window never exceeds the capacity, and `m_start` stays inside
the storage (it is `0` for a zero-capacity buffer). -/
def Wf (b : QCircularBuffer T) : Prop :=
  b.m_size ≤ b.m_buffer.length ∧ (b.m_start = 0 ∨ b.m_start < b.m_buffer.length)

/-- The states reachable from a freshly constructed buffer by the public
mutating interface. -/
inductive Reachable [Inhabited T] : QCircularBuffer T → Prop
  | con (c : Nat) : Reachable (mkBuf c)
  | push {b : QCircularBuffer T} (v : T) : Reachable b → Reachable (b.push_back v)
  | pop {b : QCircularBuffer T} : Reachable b → Reachable b.remove_front
  | clr {b : QCircularBuffer T} : Reachable b → Reachable b.clear
  | wr {b b' : QCircularBuffer T} {i : Nat} {v : T} :
      Reachable b → b.set i v = some b' → Reachable b'

/-- The last-`n` suffix of a list (the whole list when it is shorter). -/
def tailN (l : List T) (n : Nat) : List T := l.drop (l.length - n)

end QCircularBuffer

structure QLinkedHash (K T : Type) where
  m_hash : List (K × T)
  m_list : List K
deriving DecidableEq

namespace QLinkedHash

variable {K T : Type} [DecidableEq K] [Inhabited K] [Inhabited T]

/-- `QHash::contains(key)`. -/
def hContains : List (K × T) → K → Bool
  | [], _ => false
  | p :: t, k => if p.1 = k then true else hContains t k

/-- `const QHash::operator[](key)`: the stored value, or a
default-constructed `T` when the key is absent (no entry is created). -/
def hGetD : List (K × T) → K → T
  | [], _ => default
  | p :: t, k => if p.1 = k then p.2 else hGetD t k

/-- `QHash::operator[](key) = val`: replaces the value of an existing key in
place, otherwise adds the entry. -/
def hInsert : List (K × T) → K → T → List (K × T)
  | [], k, v => [(k, v)]
  | p :: t, k, v => if p.1 = k then (k, v) :: t else p :: hInsert t k v

/-- `QHash::remove(key)`: drops the entry of `key` (unique in a `QHash`). -/
def hRemove : List (K × T) → K → List (K × T)
  | [], _ => []
  | p :: t, k => if p.1 = k then t else p :: hRemove t k

/-- The key set of the hash, in storage order. -/
def hKeys (h : List (K × T)) : List K := h.map Prod.fst

/-- `QList::removeOne(key)`: removes the first occurrence, if any. -/
def removeOne : List K → K → List K
  | [], _ => []
  | x :: xs, k => if x = k then xs else x :: removeOne xs k

/-- `QList::insert(i, x)` with the release-mode `QListData::insert`
semantics: `i ≤ 0` prepends and `i ≥ size` appends (index clamping). -/
def qListInsert (i : Nat) (x : K) (l : List K) : List K :=
  l.take i ++ x :: l.drop i

/-- `QList::indexOf(key)`: index of the first occurrence, `-1` if absent. -/
def qIndexOf : List K → K → Int
  | [], _ => -1
  | x :: xs, k =>
    if x = k then 0
    else if qIndexOf xs k = -1 then -1 else qIndexOf xs k + 1

/-- `QLinkedHash()`: both structures start empty. -/
def empty : QLinkedHash K T := ⟨[], []⟩

/-- `size_t size() const { return m_list.size(); }` -/
def size (m : QLinkedHash K T) : Nat := m.m_list.length

/-- `const T operator[](int idx) const`: the value of the key at position
`idx` of `m_list` when `idx < m_list.size() && idx >= 0`, otherwise a
default-constructed `T`. -/
def atIdx (m : QLinkedHash K T) (idx : Int) : T :=
  if idx < (m.m_list.length : Int) ∧ 0 ≤ idx then
    hGetD m.m_hash (m.m_list.getD idx.toNat default)
  else default

/-- `const T operator[](const Key& key) const`: the stored value when
`m_hash.contains(key)`, otherwise a default-constructed `T`. -/
def getKey (m : QLinkedHash K T) (k : K) : T :=
  if hContains m.m_hash k then hGetD m.m_hash k else default

/-- `int indexOf(const Key& key) const { return m_list.indexOf(key); }` -/
def indexOf (m : QLinkedHash K T) (k : K) : Int :=
  qIndexOf m.m_list k

/-- `void insert(int idx, const Key& key, const T& val)`: when
`idx <= m_list.size() && idx >= 0`, first `m_list.removeOne(key)` if the
hash contains `key`, then `m_list.insert(idx, key)` and `m_hash[key] = val`;
otherwise nothing happens. -/
def insert (m : QLinkedHash K T) (idx : Int) (k : K) (v : T) : QLinkedHash K T :=
  if idx ≤ (m.m_list.length : Int) ∧ 0 ≤ idx then
    { m_hash := hInsert m.m_hash k v,
      m_list := qListInsert idx.toNat k
        (if hContains m.m_hash k then removeOne m.m_list k else m.m_list) }
  else m

/-- `void append(key, val) { return insert(size(), key, val); }` -/
def append (m : QLinkedHash K T) (k : K) (v : T) : QLinkedHash K T :=
  m.insert (m.size : Int) k v

/-- `void remove(const QString& key)`: when the hash contains the key,
`m_hash.remove(key)` and `m_list.removeOne(key)`. -/
def remove (m : QLinkedHash K T) (k : K) : QLinkedHash K T :=
  if hContains m.m_hash k then
    { m_hash := hRemove m.m_hash k, m_list := removeOne m.m_list k }
  else m

/-- `void removeAt(int idx)`: when `idx < m_list.size() && idx >= 0`,
`m_hash.remove(m_list[idx])` and `m_list.removeAt(idx)`. -/
def removeAt (m : QLinkedHash K T) (idx : Int) : QLinkedHash K T :=
  if idx < (m.m_list.length : Int) ∧ 0 ≤ idx then
    { m_hash := hRemove m.m_hash (m.m_list.getD idx.toNat default),
      m_list := m.m_list.eraseIdx idx.toNat }
  else m

/-- The bijection invariant between `m_list` (the order sequence) and
`m_hash` (the index): every key occurs exactly once in the order sequence,
the stored hash keys are pairwise distinct, and both key sets coincide. -/
def MapWf (m : QLinkedHash K T) : Prop :=
  m.m_list.Nodup ∧ (hKeys m.m_hash).Nodup ∧
  ∀ k : K, k ∈ m.m_list ↔ k ∈ hKeys m.m_hash

/-- The states reachable from a default-constructed `QLinkedHash` by the
public mutating interface. -/
inductive MapReachable : QLinkedHash K T → Prop
  | con : MapReachable empty
  | ins {m : QLinkedHash K T} (idx : Int) (k : K) (v : T) :
      MapReachable m → MapReachable (m.insert idx k v)
  | app {m : QLinkedHash K T} (k : K) (v : T) :
      MapReachable m → MapReachable (m.append k v)
  | rmk {m : QLinkedHash K T} (k : K) :
      MapReachable m → MapReachable (m.remove k)
  | rmi {m : QLinkedHash K T} (idx : Int) :
      MapReachable m → MapReachable (m.removeAt idx)

end QLinkedHash

namespace QCircularBuffer

variable {T : Type}

/-- The capacity (`m_buffer.size()`) is never changed by any operation. -/
theorem length_push_back (b : QCircularBuffer T) (v : T) :
    (b.push_back v).m_buffer.length = b.m_buffer.length := by
  unfold push_back
  split
  · rfl
  · split <;> simp

theorem wf_mkBuf [Inhabited T] (c : Nat) : Wf (mkBuf (T := T) c) := by
  constructor
  · simp [mkBuf]
  · left; rfl

theorem wf_push_back (b : QCircularBuffer T) (v : T) (h : Wf b) : Wf (b.push_back v) := by
  obtain ⟨h1, h2⟩ := h
  unfold push_back
  split
  · exact ⟨h1, h2⟩
  · rename_i hne
    have hpos : 0 < b.m_buffer.length := by
      cases hb : b.m_buffer with
      | nil => simp [hb] at hne
      | cons x xs => simp [hb]
    split
    · rename_i hlt
      exact ⟨by simpa using hlt, by simpa using h2⟩
    · refine ⟨by simpa using h1, Or.inr ?_⟩
      simpa using Nat.mod_lt _ hpos

theorem wf_remove_front (b : QCircularBuffer T) (h : Wf b) : Wf b.remove_front := by
  obtain ⟨h1, h2⟩ := h
  unfold remove_front
  split
  · exact ⟨h1, h2⟩
  · rename_i hne
    have hsz : b.m_size ≠ 0 := by simpa [isEmpty] using hne
    have hpos : 0 < b.m_buffer.length := lt_of_lt_of_le (Nat.pos_of_ne_zero hsz) h1
    exact ⟨le_trans (Nat.sub_le _ _) h1, Or.inr (Nat.mod_lt _ hpos)⟩

theorem wf_clear (b : QCircularBuffer T) : Wf b.clear := by
  exact ⟨Nat.zero_le _, Or.inl rfl⟩

theorem wf_set (b b' : QCircularBuffer T) (i : Nat) (v : T)
    (h : Wf b) (hs : b.set i v = some b') : Wf b' := by
  unfold set at hs
  split at hs
  · exact absurd hs (by simp)
  · obtain ⟨h1, h2⟩ := h
    cases hs
    exact ⟨by simpa using h1, by simpa using h2⟩

theorem wf_of_reachable [Inhabited T] (b : QCircularBuffer T) (h : Reachable b) : Wf b := by
  induction h with
  | con c => exact wf_mkBuf c
  | push v _ ih => exact wf_push_back _ v ih
  | pop _ ih => exact wf_remove_front _ ih
  | clr _ ih => exact wf_clear _
  | wr _ hs ih => exact wf_set _ _ _ _ ih hs

theorem length_contents [Inhabited T] (b : QCircularBuffer T) :
    (contents b).length = b.m_size := by
  simp [contents]

theorem getD_set_ne (l : List T) (i j : Nat) (v d : T) (h : i ≠ j) :
    (l.set i v).getD j d = l.getD j d := by
  simp [List.getD_eq_getElem?_getD, List.getElem?_set_ne h]

theorem getD_set_self (l : List T) (i : Nat) (v d : T) (h : i < l.length) :
    (l.set i v).getD i d = v := by
  simp [List.getD_eq_getElem?_getD, List.getElem?_set_self, h]

/-- How one `push_back` transforms the logical contents: a no-op at capacity
zero, an append when there is room, and drop-oldest-then-append when full. -/
theorem contents_push_back [Inhabited T] (b : QCircularBuffer T) (v : T) (hwf : Wf b) :
    contents (b.push_back v) =
      if b.m_buffer.length = 0 then contents b
      else if b.m_size < b.m_buffer.length then contents b ++ [v]
      else (contents b).drop 1 ++ [v] := by
  obtain ⟨h1, h2⟩ := hwf
  by_cases hc : b.m_buffer.length = 0
  · have hbe : b.m_buffer.isEmpty = true := by
      cases hb : b.m_buffer with
      | nil => rfl
      | cons x xs => simp [hb] at hc
    simp [push_back, hbe, hc]
  · have hbe : b.m_buffer.isEmpty = false := by
      cases hb : b.m_buffer with
      | nil => simp [hb] at hc
      | cons x xs => rfl
    have hcpos : 0 < b.m_buffer.length := Nat.pos_of_ne_zero hc
    have hst : b.m_start < b.m_buffer.length := by
      rcases h2 with h2 | h2
      · omega
      · exact h2
    by_cases hlt : b.m_size < b.m_buffer.length
    · -- not-full branch: write at (start + size) % cap, grow the window
      have : contents (b.push_back v) =
          (List.range (b.m_size + 1)).map
            (fun i => (b.m_buffer.set ((b.m_start + b.m_size) % b.m_buffer.length) v).getD
              ((b.m_start + i) % b.m_buffer.length) default) := by
        simp [push_back, hbe, hlt, contents, readAt]
      rw [this]
      rw [List.range_succ, List.map_append]
      simp only [hc, hlt, if_neg, if_pos, if_false]
      congr 1
      · apply List.map_congr_left
        intro i hi
        have hi' : i < b.m_size := by simpa using hi
        have hne : (b.m_start + b.m_size) % b.m_buffer.length ≠
            (b.m_start + i) % b.m_buffer.length := by
          intro heq
          have hmod : i ≡ b.m_size [MOD b.m_buffer.length] :=
            Nat.ModEq.add_left_cancel' b.m_start heq.symm
          have : i % b.m_buffer.length = b.m_size % b.m_buffer.length := hmod
          rw [Nat.mod_eq_of_lt (lt_trans hi' hlt), Nat.mod_eq_of_lt hlt] at this
          omega
        rw [getD_set_ne _ _ _ _ _ hne]
        rfl
      · simp only [List.map_cons, List.map_nil]
        rw [getD_set_self _ _ _ _ (Nat.mod_lt _ hcpos)]
    · -- full branch: overwrite the oldest slot, advance the start
      have hsz : b.m_size = b.m_buffer.length := le_antisymm h1 (le_of_not_lt hlt)
      have : contents (b.push_back v) =
          (List.range b.m_size).map
            (fun i => (b.m_buffer.set b.m_start v).getD
              (((b.m_start + 1) % b.m_buffer.length + i) % b.m_buffer.length) default) := by
        simp [push_back, hbe, hlt, contents, readAt]
      rw [this]
      simp only [hc, hlt, if_neg, if_false]
      have hrange : b.m_size = (b.m_size - 1) + 1 := by omega
      rw [hrange, List.range_succ, List.map_append]
      congr 1
      · -- the surviving elements shift down by one logical position
        have hdrop : (contents b).drop 1 =
            (List.range (b.m_size - 1)).map (fun i => b.readAt (i + 1)) := by
          rw [contents, hrange, List.range_succ_eq_map]
          simp [List.map_map, Function.comp]
        rw [hdrop]
        apply List.map_congr_left
        intro i hi
        have hi' : i < b.m_size - 1 := by simpa using hi
        have hmod1 : ((b.m_start + 1) % b.m_buffer.length + i) % b.m_buffer.length =
            (b.m_start + (i + 1)) % b.m_buffer.length := by
          rw [Nat.mod_add_mod]
          ring_nf
        have hne : b.m_start ≠ (b.m_start + (i + 1)) % b.m_buffer.length := by
          intro heq
          have heq' : (b.m_start + (i + 1)) % b.m_buffer.length =
              (b.m_start + 0) % b.m_buffer.length := by
            simpa [Nat.mod_eq_of_lt hst] using heq.symm
          have hmod : (i + 1) ≡ 0 [MOD b.m_buffer.length] :=
            Nat.ModEq.add_left_cancel' b.m_start heq'
          have : (i + 1) % b.m_buffer.length = 0 % b.m_buffer.length := hmod
          rw [Nat.mod_eq_of_lt (by omega), Nat.zero_mod] at this
          omega
        rw [hmod1, getD_set_ne _ _ _ _ _ hne]
        rfl
      · simp only [List.map_cons, List.map_nil]
        have hmod2 : ((b.m_start + 1) % b.m_buffer.length + (b.m_size - 1)) %
            b.m_buffer.length = b.m_start := by
          rw [Nat.mod_add_mod]
          have : b.m_start + 1 + (b.m_size - 1) = b.m_start + b.m_buffer.length := by omega
          rw [this, Nat.add_mod_right, Nat.mod_eq_of_lt hst]
        rw [hmod2, getD_set_self _ _ _ _ (by simpa using hst)]

theorem tailN_cons (x : T) (l : List T) (n : Nat) (h : n ≤ l.length) :
    tailN (x :: l) n = tailN l n := by
  unfold tailN
  have : (x :: l).length - n = (l.length - n) + 1 := by
    simp only [List.length_cons]
    omega
  rw [this, List.drop_succ_cons]

/-- Characterisation of an arbitrary `push_back` sequence: the final logical
contents are the last `capacity` elements of old-contents-then-pushed-values. -/
theorem contents_pushAll [Inhabited T] (vs : List T) (b : QCircularBuffer T) (hwf : Wf b) :
    contents (pushAll b vs) = tailN (contents b ++ vs) b.m_buffer.length := by
  induction vs generalizing b with
  | nil =>
    have h1 : b.m_size ≤ b.m_buffer.length := hwf.1
    have : (contents b).length - b.m_buffer.length = 0 := by
      rw [length_contents]
      omega
    simp [pushAll, tailN, this]
  | cons v vs ih =>
    have hstep : pushAll b (v :: vs) = pushAll (b.push_back v) vs := rfl
    rw [hstep, ih _ (wf_push_back b v hwf), length_push_back,
      contents_push_back b v hwf]
    by_cases hc : b.m_buffer.length = 0
    · have h1 : b.m_size ≤ b.m_buffer.length := hwf.1
      have hnil : contents b = [] := by
        have hsz : b.m_size = 0 := by omega
        simp [contents, hsz]
      simp [hc, hnil, tailN]
    · by_cases hlt : b.m_size < b.m_buffer.length
      · simp only [hc, hlt, if_neg, if_pos, if_false]
        rw [List.append_assoc]
        rfl
      · simp only [hc, hlt, if_neg, if_false]
        have hsz : b.m_size = b.m_buffer.length := le_antisymm hwf.1 (le_of_not_lt hlt)
        have hlen : (contents b).length = b.m_buffer.length := by rw [length_contents, hsz]
        cases hcl : contents b with
        | nil => rw [hcl] at hlen; simp at hlen; omega
        | cons x t =>
          rw [hcl] at hlen
          simp only [List.length_cons] at hlen
          have ht : b.m_buffer.length ≤ (t ++ [v] ++ vs).length := by
            simp
            omega
          calc tailN ((x :: t).drop 1 ++ [v] ++ vs) b.m_buffer.length
              = tailN (t ++ [v] ++ vs) b.m_buffer.length := by rw [List.drop_succ_cons, List.drop_zero]
            _ = tailN (x :: (t ++ [v] ++ vs)) b.m_buffer.length := (tailN_cons x _ _ ht).symm
            _ = tailN ((x :: t) ++ v :: vs) b.m_buffer.length := by
                  rw [List.cons_append, List.append_assoc]
                  rfl

/-- Positional access agrees with the logical-contents abstraction. -/
theorem get_eq_contents_getElem [Inhabited T] (b : QCircularBuffer T) (i : Nat) :
    b.get i = (contents b)[i]? := by
  unfold get contents
  by_cases h : b.m_size ≤ i
  · rw [if_pos h]
    symm
    apply List.getElem?_eq_none
    simpa using h
  · rw [if_neg h]
    have hi : i < b.m_size := lt_of_not_ge h
    rw [List.getElem?_map]
    simp [List.getElem?_range, hi]

/-- C2: starting from a fresh buffer of capacity `c`, after pushing
`v1, …, vn` with `n ≥ c` the size is `c` and positional access at
`0, …, c-1` reads exactly the last `c` pushed values in push order. -/
theorem c2_pushBack_keeps_last_capacity [Inhabited T] (c : Nat) (vs : List T)
    (h : c ≤ vs.length) :
    (pushAll (mkBuf c) vs).size = c ∧
    ∀ i, i < c → (pushAll (mkBuf c) vs).get i = (vs.drop (vs.length - c))[i]? := by
  have hwf0 : Wf (mkBuf (T := T) c) := wf_mkBuf c
  have hcont : contents (pushAll (mkBuf c) vs) =
      tailN (contents (mkBuf (T := T) c) ++ vs) (mkBuf (T := T) c).m_buffer.length :=
    contents_pushAll vs _ hwf0
  have hnil : contents (mkBuf (T := T) c) = [] := rfl
  have hcap : (mkBuf (T := T) c).m_buffer.length = c := by simp [mkBuf]
  rw [hnil, hcap, List.nil_append] at hcont
  have hdrop : contents (pushAll (mkBuf (T := T) c) vs) = vs.drop (vs.length - c) := hcont
  constructor
  · have := length_contents (pushAll (mkBuf (T := T) c) vs)
    rw [hdrop] at this
    simp only [List.length_drop] at this
    unfold size
    omega
  · intro i _
    rw [get_eq_contents_getElem, hdrop]

/-- C2 witness: capacity 3, pushes `[1, 2, 3, 4]`. -/
theorem c2_pushBack_keeps_last_capacity_witness :
    3 ≤ ([1, 2, 3, 4] : List Nat).length ∧
    ((pushAll (mkBuf 3) ([1, 2, 3, 4] : List Nat)).size = 3 ∧
      ∀ i, i < 3 → (pushAll (mkBuf 3) ([1, 2, 3, 4] : List Nat)).get i =
        (([1, 2, 3, 4] : List Nat).drop (([1, 2, 3, 4] : List Nat).length - 3))[i]?) :=
  ⟨by decide, c2_pushBack_keeps_last_capacity 3 [1, 2, 3, 4] (by decide)⟩

/-- C5 as stated is false at `k = 0`: on a nonempty buffer, `front(0)`
returns the whole contents (the unsigned `n <= 0` test), so the
concatenation duplicates the buffer. -/
theorem c5_counterexample :
    0 ≤ ((mkBuf (T := Nat) 1).push_back 5).size ∧
    ((mkBuf (T := Nat) 1).push_back 5).front 0 ++
        ((mkBuf (T := Nat) 1).push_back 5).back (((mkBuf (T := Nat) 1).push_back 5).size - 0) ≠
      contents ((mkBuf (T := Nat) 1).push_back 5) := by
  decide

/-- C5 (amended): for every `k` strictly between `0` and `size()`,
`front(k)` concatenated with `back(size()-k)` is the full logical contents;
the endpoints `k = 0` and `k = size()` are excluded because a count of `0`
makes `front`/`back` return the whole contents. -/
theorem c5_front_back_partition [Inhabited T] (b : QCircularBuffer T) (k : Nat)
    (hk : 0 < k) (hks : k < b.m_size) :
    b.front k ++ b.back (b.m_size - k) = contents b := by
  have hk0 : ¬ k = 0 := by omega
  have hnz : ¬ b.m_size - k = 0 := by omega
  have hmk : min k b.m_size = k := by omega
  have hmin2 : min (b.m_size - k) b.m_size = b.m_size - k := by omega
  unfold front back contents
  rw [if_neg hk0, if_neg hnz, hmk, hmin2]
  have hms : b.m_size - (b.m_size - k) = k := by omega
  rw [hms]
  have hsplit : List.range b.m_size = List.range k ++ (List.range (b.m_size - k)).map (k + ·) := by
    conv_lhs => rw [show b.m_size = k + (b.m_size - k) by omega]
    exact List.range_add k (b.m_size - k)
  rw [hsplit, List.map_append, List.map_map]
  congr 1

/-- C5 witness for the amended statement: capacity 2 holding `[4, 5]`, `k = 1`. -/
theorem c5_front_back_partition_witness :
    (0 < 1 ∧ 1 < (((mkBuf (T := Nat) 2).push_back 4).push_back 5).m_size) ∧
    (((mkBuf (T := Nat) 2).push_back 4).push_back 5).front 1 ++
        (((mkBuf (T := Nat) 2).push_back 4).push_back 5).back
          ((((mkBuf (T := Nat) 2).push_back 4).push_back 5).m_size - 1) =
      contents (((mkBuf (T := Nat) 2).push_back 4).push_back 5) :=
  ⟨⟨by decide, by decide⟩,
    c5_front_back_partition (((mkBuf (T := Nat) 2).push_back 4).push_back 5) 1
      (by decide) (by decide)⟩

/-- On a full buffer (positive capacity), `remove_front` then `push_back v`
produces exactly the same state as `push_back v` alone. -/
theorem remove_front_push_back_eq (b : QCircularBuffer T) (v : T) (hwf : Wf b)
    (hfull : b.m_size = b.m_buffer.length) (hpos : 0 < b.m_buffer.length) :
    (b.remove_front).push_back v = b.push_back v := by
  have hst : b.m_start < b.m_buffer.length := by
    rcases hwf.2 with h | h
    · omega
    · exact h
  have hsz : b.m_size ≠ 0 := by omega
  have hie : ¬ b.isEmpty = true := by simp [isEmpty, hsz]
  have hbne : ¬ b.m_buffer.isEmpty = true := by
    cases hb : b.m_buffer with
    | nil => rw [hb] at hpos; simp at hpos
    | cons x xs => simp
  have hmod : ((b.m_start + 1) % b.m_buffer.length + (b.m_size - 1)) % b.m_buffer.length
      = b.m_start := by
    rw [Nat.mod_add_mod]
    have harr : b.m_start + 1 + (b.m_size - 1) = b.m_start + b.m_buffer.length := by omega
    rw [harr, Nat.add_mod_right, Nat.mod_eq_of_lt hst]
  simp only [remove_front, push_back, if_neg hie, if_neg hbne]
  rw [if_pos (show b.m_size - 1 < b.m_buffer.length by omega)]
  rw [if_neg (show ¬ b.m_size < b.m_buffer.length by omega)]
  rw [hmod]
  simp only [mk.injEq]
  refine ⟨trivial, trivial, by omega⟩

/-- C6: on a reachable full buffer (`size() == capacity > 0`), `removeFront`
followed by `pushBack v` yields the same logical contents as `pushBack v`
alone. -/
theorem c6_overwrite_equivalence [Inhabited T] (b : QCircularBuffer T) (v : T)
    (h : Reachable b) (hfull : b.m_size = b.m_buffer.length)
    (hpos : 0 < b.m_buffer.length) :
    contents ((b.remove_front).push_back v) = contents (b.push_back v) :=
  congrArg contents (remove_front_push_back_eq b v (wf_of_reachable b h) hfull hpos)

/-- C6 witness: the full capacity-2 buffer `[5, 6]` and `v = 7`. -/
theorem c6_overwrite_equivalence_witness :
    ((((mkBuf (T := Nat) 2).push_back 5).push_back 6).m_size =
        (((mkBuf (T := Nat) 2).push_back 5).push_back 6).m_buffer.length ∧
      0 < (((mkBuf (T := Nat) 2).push_back 5).push_back 6).m_buffer.length) ∧
    contents (((((mkBuf (T := Nat) 2).push_back 5).push_back 6).remove_front).push_back 7) =
      contents ((((mkBuf (T := Nat) 2).push_back 5).push_back 6).push_back 7) :=
  ⟨⟨by decide, by decide⟩,
    c6_overwrite_equivalence (((mkBuf (T := Nat) 2).push_back 5).push_back 6) 7
      (Reachable.push 6 (Reachable.push 5 (Reachable.con 2))) (by decide) (by decide)⟩

/-- C7: positional access fails (throws, modelled as `none`) exactly when
`idx ≥ size()`; in range it reads/writes the physical slot
`(m_start + idx) % capacity`, and a failed access produces no new state. -/
theorem c7_positional_access_policy [Inhabited T] (b : QCircularBuffer T) (i : Nat) (v : T) :
    (b.m_size ≤ i → b.get i = none ∧ b.set i v = none) ∧
    (i < b.m_size →
      b.get i = some (b.m_buffer.getD ((b.m_start + i) % b.m_buffer.length) default) ∧
      b.set i v =
        some { b with m_buffer := b.m_buffer.set ((b.m_start + i) % b.m_buffer.length) v }) := by
  constructor
  · intro h
    simp [get, set, h]
  · intro h
    have h' : ¬ b.m_size ≤ i := by omega
    simp [get, set, readAt, h']

/-- C7 witness: buffer `[4]` of capacity 2; index 3 fails, index 0 reads
slot `(0 + 0) % 2`. -/
theorem c7_positional_access_policy_witness :
    (((mkBuf (T := Nat) 2).push_back 4).m_size ≤ 3 ∧
      ((mkBuf (T := Nat) 2).push_back 4).get 3 = none ∧
      ((mkBuf (T := Nat) 2).push_back 4).set 3 9 = none) ∧
    (0 < ((mkBuf (T := Nat) 2).push_back 4).m_size ∧
      ((mkBuf (T := Nat) 2).push_back 4).get 0 = some 4) := by
  have h1 := (c7_positional_access_policy ((mkBuf (T := Nat) 2).push_back 4) 3 9).1 (by decide)
  have h2 := (c7_positional_access_policy ((mkBuf (T := Nat) 2).push_back 4) 0 9).2 (by decide)
  refine ⟨⟨by decide, h1.1, h1.2⟩, by decide, ?_⟩
  rw [h2.1]
  decide

/-- C9: a capacity-0 buffer stays empty under every mutation: `pushBack`,
`removeFront` and `clear` are no-ops (none signals an error in the source:
all three return before touching the storage), `isEmpty()` and `isFull()`
are both true, and `size()` is 0. -/
theorem c9_zero_capacity_noop [Inhabited T] (b : QCircularBuffer T) (v : T)
    (h : Reachable b) (hc : b.m_buffer.length = 0) :
    b.push_back v = b ∧ b.remove_front = b ∧ b.clear = b ∧
    b.isEmpty = true ∧ b.isFull = true ∧ b.size = 0 := by
  have hwf := wf_of_reachable b h
  have hsz : b.m_size = 0 := by
    have := hwf.1
    omega
  have hst : b.m_start = 0 := by
    rcases hwf.2 with h0 | h0
    · exact h0
    · omega
  have hbe : b.m_buffer.isEmpty = true := by
    cases hb : b.m_buffer with
    | nil => rfl
    | cons x xs => simp [hb] at hc
  refine ⟨?_, ?_, ?_, ?_, ?_, ?_⟩
  · simp [push_back, hbe]
  · simp [remove_front, isEmpty, hsz]
  · cases b
    simp only [clear, mk.injEq]
    simp_all
  · simp [isEmpty, hsz]
  · simp [isFull, hsz, hc]
  · simp [size, hsz]

/-- C9 witness: the freshly constructed capacity-0 buffer and `v = 1`. -/
theorem c9_zero_capacity_noop_witness :
    (mkBuf (T := Nat) 0).m_buffer.length = 0 ∧
    ((mkBuf (T := Nat) 0).push_back 1 = mkBuf 0 ∧
      (mkBuf (T := Nat) 0).remove_front = mkBuf 0 ∧
      (mkBuf (T := Nat) 0).clear = mkBuf 0 ∧
      (mkBuf (T := Nat) 0).isEmpty = true ∧
      (mkBuf (T := Nat) 0).isFull = true ∧
      (mkBuf (T := Nat) 0).size = 0) :=
  ⟨by decide, c9_zero_capacity_noop (mkBuf 0) 1 (Reachable.con 0) (by decide)⟩

/-- C10: in every reachable state, each guard that fronts a
modulo-by-capacity computation forces the divisor `m_buffer.size()` to be
nonzero: the `idx < m_size` bound of `operator[]`, the `!isEmpty()` test of
`remove_front`, and the `!m_buffer.isEmpty()` test of `push_back`. -/
theorem c10_modulo_divisor_nonzero [Inhabited T] (b : QCircularBuffer T)
    (h : Reachable b) :
    (∀ idx, idx < b.m_size → b.m_buffer.length ≠ 0) ∧
    (b.isEmpty = false → b.m_buffer.length ≠ 0) ∧
    (b.m_buffer.isEmpty = false → b.m_buffer.length ≠ 0) := by
  have hwf := wf_of_reachable b h
  have h1 := hwf.1
  refine ⟨?_, ?_, ?_⟩
  · intro idx hidx
    omega
  · intro he
    have : b.m_size ≠ 0 := by simpa [isEmpty] using he
    omega
  · intro he
    cases hb : b.m_buffer with
    | nil => rw [hb] at he; simp at he
    | cons x xs => simp [hb]

/-- C10 witness: the reachable one-element buffer `[2]` of capacity 1. -/
theorem c10_modulo_divisor_nonzero_witness :
    (∀ idx, idx < ((mkBuf (T := Nat) 1).push_back 2).m_size →
      ((mkBuf (T := Nat) 1).push_back 2).m_buffer.length ≠ 0) ∧
    (((mkBuf (T := Nat) 1).push_back 2).isEmpty = false →
      ((mkBuf (T := Nat) 1).push_back 2).m_buffer.length ≠ 0) ∧
    (((mkBuf (T := Nat) 1).push_back 2).m_buffer.isEmpty = false →
      ((mkBuf (T := Nat) 1).push_back 2).m_buffer.length ≠ 0) :=
  c10_modulo_divisor_nonzero ((mkBuf 1).push_back 2) (Reachable.push 2 (Reachable.con 1))

end QCircularBuffer

namespace QLinkedHash

variable {K T : Type} [DecidableEq K] [Inhabited K] [Inhabited T]

theorem hContains_iff (h : List (K × T)) (k : K) :
    hContains h k = true ↔ k ∈ hKeys h := by
  induction h with
  | nil => simp [hContains, hKeys]
  | cons p t ih =>
    by_cases hp : p.1 = k
    · simp [hContains, hKeys, hp]
    · simp only [hContains, hKeys, if_neg hp, List.map_cons, List.mem_cons]
      rw [ih]
      constructor
      · intro hm
        exact Or.inr hm
      · rintro (hm | hm)
        · exact absurd hm.symm hp
        · exact hm

theorem hKeys_hInsert (h : List (K × T)) (k : K) (v : T) :
    hKeys (hInsert h k v) = if hContains h k then hKeys h else hKeys h ++ [k] := by
  induction h with
  | nil => simp [hInsert, hContains, hKeys]
  | cons p t ih =>
    by_cases hp : p.1 = k
    · simp [hInsert, hContains, hKeys, hp]
    · simp only [hInsert, hContains, if_neg hp, hKeys, List.map_cons]
      rw [show hKeys (hInsert t k v) = List.map Prod.fst (hInsert t k v) from rfl] at ih
      rw [ih]
      split <;> simp [hKeys]

theorem hGetD_hInsert_self (h : List (K × T)) (k : K) (v : T) :
    hGetD (hInsert h k v) k = v := by
  induction h with
  | nil => simp [hInsert, hGetD]
  | cons p t ih =>
    by_cases hp : p.1 = k
    · simp [hInsert, hGetD, hp]
    · simp [hInsert, hGetD, hp, ih]

theorem hContains_hInsert_self (h : List (K × T)) (k : K) (v : T) :
    hContains (hInsert h k v) k = true := by
  rw [hContains_iff, hKeys_hInsert]
  split
  · rw [← hContains_iff]
    assumption
  · simp

theorem hKeys_cons (p : K × T) (t : List (K × T)) : hKeys (p :: t) = p.1 :: hKeys t := rfl

theorem hKeys_hRemove (h : List (K × T)) (k : K) :
    hKeys (hRemove h k) = removeOne (hKeys h) k := by
  induction h with
  | nil => rfl
  | cons p t ih =>
    rw [hKeys_cons]
    unfold hRemove removeOne
    by_cases hp : p.1 = k
    · rw [if_pos hp, if_pos hp]
    · rw [if_neg hp, if_neg hp, hKeys_cons, ih]

theorem removeOne_eq_erase (l : List K) (k : K) : removeOne l k = l.erase k := by
  induction l with
  | nil => rfl
  | cons x xs ih =>
    by_cases hx : x = k
    · simp [removeOne, hx, List.erase_cons]
    · simp [removeOne, hx, List.erase_cons, ih]

theorem qListInsert_perm (i : Nat) (x : K) (l : List K) :
    List.Perm (qListInsert i x l) (x :: l) := by
  unfold qListInsert
  calc List.Perm (l.take i ++ x :: l.drop i) (x :: (l.take i ++ l.drop i)) := List.perm_middle
    _ = (x :: l) := by rw [List.take_append_drop]

theorem length_qListInsert (i : Nat) (x : K) (l : List K) :
    (qListInsert i x l).length = l.length + 1 := by
  rw [(qListInsert_perm i x l).length_eq]
  rfl

theorem mem_qListInsert (i : Nat) (x y : K) (l : List K) :
    y ∈ qListInsert i x l ↔ y = x ∨ y ∈ l := by
  rw [(qListInsert_perm i x l).mem_iff]
  simp

theorem nodup_qListInsert (i : Nat) (x : K) (l : List K) (hx : x ∉ l) (hl : l.Nodup) :
    (qListInsert i x l).Nodup := by
  rw [(qListInsert_perm i x l).nodup_iff]
  simp [List.nodup_cons, hx, hl]

theorem qListInsert_of_le (i : Nat) (x : K) (l : List K) (h : l.length ≤ i) :
    qListInsert i x l = l ++ [x] := by
  unfold qListInsert
  rw [List.take_of_length_le h, List.drop_eq_nil_of_le h]

theorem getD_qListInsert (i : Nat) (x : K) (l : List K) (h : i ≤ l.length) (d : K) :
    (qListInsert i x l).getD i d = x := by
  induction i generalizing l with
  | zero => rfl
  | succ i ih =>
    cases l with
    | nil => simp at h
    | cons y ys =>
      have hstep : qListInsert (i + 1) x (y :: ys) = y :: qListInsert i x ys := rfl
      rw [hstep]
      have : i ≤ ys.length := by simpa using h
      simpa [List.getD] using ih ys this

theorem qIndexOf_qListInsert (i : Nat) (k : K) (l : List K) (hk : k ∉ l)
    (h : i ≤ l.length) : qIndexOf (qListInsert i k l) k = (i : Int) := by
  induction i generalizing l with
  | zero =>
    have hstep : qListInsert 0 k l = k :: l := rfl
    simp [hstep, qIndexOf]
  | succ i ih =>
    cases l with
    | nil => simp at h
    | cons y ys =>
      have hstep : qListInsert (i + 1) k (y :: ys) = y :: qListInsert i k ys := rfl
      rw [hstep]
      have hy : ¬ y = k := by
        intro he
        exact hk (he ▸ List.mem_cons_self y ys)
      have hys : k ∉ ys := fun hm => hk (List.mem_cons_of_mem y hm)
      have hr := ih ys hys (by simpa using h)
      have hrne : qIndexOf (qListInsert i k ys) k ≠ -1 := by
        rw [hr]
        omega
      simp only [qIndexOf, if_neg hy, if_neg hrne, hr]
      push_cast
      ring

end QLinkedHash

namespace QLinkedHash

variable {K T : Type} [DecidableEq K] [Inhabited K] [Inhabited T]

theorem mem_removeOne_iff (l : List K) (k x : K) (h : l.Nodup) :
    x ∈ removeOne l k ↔ x ∈ l ∧ x ≠ k := by
  rw [removeOne_eq_erase, h.mem_erase_iff]
  tauto

theorem nodup_removeOne (l : List K) (k : K) (h : l.Nodup) : (removeOne l k).Nodup := by
  rw [removeOne_eq_erase]
  exact h.erase k

theorem not_mem_removeOne_self (l : List K) (k : K) (h : l.Nodup) : k ∉ removeOne l k := by
  rw [removeOne_eq_erase]
  exact h.not_mem_erase

theorem length_removeOne_of_mem (l : List K) (k : K) (h : k ∈ l) :
    (removeOne l k).length = l.length - 1 := by
  rw [removeOne_eq_erase]
  exact List.length_erase_of_mem h

theorem mapWf_empty : MapWf (empty : QLinkedHash K T) := by
  refine ⟨List.nodup_nil, List.nodup_nil, ?_⟩
  intro k
  simp [empty, hKeys]

theorem mapWf_insert (m : QLinkedHash K T) (idx : Int) (k : K) (v : T) (h : MapWf m) :
    MapWf (m.insert idx k v) := by
  obtain ⟨hln, hkn, hiff⟩ := h
  unfold insert
  split
  · by_cases hc : hContains m.m_hash k = true
    · -- existing key: its old occurrence is removed from the order first
      rw [if_pos hc]
      have hkmem : k ∈ hKeys m.m_hash := (hContains_iff _ _).mp hc
      have hknotin : k ∉ removeOne m.m_list k := not_mem_removeOne_self _ _ hln
      refine ⟨nodup_qListInsert _ _ _ hknotin (nodup_removeOne _ _ hln), ?_, ?_⟩
      · rw [hKeys_hInsert, if_pos hc]
        exact hkn
      · intro x
        rw [mem_qListInsert, hKeys_hInsert, if_pos hc, mem_removeOne_iff _ _ _ hln]
        have hx := hiff x
        by_cases hxk : x = k
        · subst hxk
          simp [hkmem]
        · tauto
    · -- new key: appended to both structures
      rw [if_neg hc]
      have hknotin : k ∉ m.m_list := by
        intro hk
        exact hc ((hContains_iff _ _).mpr ((hiff k).mp hk))
      have hkkeys : k ∉ hKeys m.m_hash := by
        intro hk
        exact hc ((hContains_iff _ _).mpr hk)
      refine ⟨nodup_qListInsert _ _ _ hknotin hln, ?_, ?_⟩
      · rw [hKeys_hInsert, if_neg hc, List.nodup_append]
        refine ⟨hkn, List.nodup_singleton k, ?_⟩
        intro a ha hb
        rw [List.mem_singleton] at hb
        subst hb
        exact hkkeys ha
      · intro x
        rw [mem_qListInsert, hKeys_hInsert, if_neg hc, List.mem_append, List.mem_singleton]
        have hx := hiff x
        tauto
  · exact ⟨hln, hkn, hiff⟩

theorem mapWf_remove (m : QLinkedHash K T) (k : K) (h : MapWf m) : MapWf (m.remove k) := by
  obtain ⟨hln, hkn, hiff⟩ := h
  unfold remove
  split
  · refine ⟨nodup_removeOne _ _ hln, ?_, ?_⟩
    · rw [hKeys_hRemove]
      exact nodup_removeOne _ _ hkn
    · intro x
      rw [mem_removeOne_iff _ _ _ hln, hKeys_hRemove, mem_removeOne_iff _ _ _ hkn]
      have hx := hiff x
      tauto
  · exact ⟨hln, hkn, hiff⟩

theorem eraseIdx_eq_erase_of_nodup (l : List K) (n : Nat) (hn : n < l.length)
    (h : l.Nodup) : l.eraseIdx n = l.erase (l.getD n default) := by
  induction l generalizing n with
  | nil => simp at hn
  | cons x xs ih =>
    cases n with
    | zero => simp [List.eraseIdx, List.getD, List.erase_cons]
    | succ n =>
      have hn' : n < xs.length := by simpa using hn
      have hx : x ∉ xs := (List.nodup_cons.mp h).1
      have hxs : xs.Nodup := (List.nodup_cons.mp h).2
      have hy : xs.getD n default ∈ xs := by
        rw [List.getD_eq_getElem xs default hn']
        exact List.getElem_mem hn'
      have hxy : ¬ x = xs.getD n default := fun he => hx (he ▸ hy)
      show x :: xs.eraseIdx n = (x :: xs).erase ((x :: xs).getD (n + 1) default)
      have hgd : (x :: xs).getD (n + 1) default = xs.getD n default := rfl
      rw [hgd, List.erase_cons, if_neg (by simpa using hxy), ih n hn' hxs]

theorem mapWf_removeAt (m : QLinkedHash K T) (idx : Int) (h : MapWf m) :
    MapWf (m.removeAt idx) := by
  obtain ⟨hln, hkn, hiff⟩ := h
  unfold removeAt
  split
  · rename_i hguard
    obtain ⟨hg1, hg2⟩ := hguard
    have hlt : idx.toNat < m.m_list.length := by omega
    rw [eraseIdx_eq_erase_of_nodup _ _ hlt hln, ← removeOne_eq_erase]
    refine ⟨nodup_removeOne _ _ hln, ?_, ?_⟩
    · rw [hKeys_hRemove]
      exact nodup_removeOne _ _ hkn
    · intro x
      rw [mem_removeOne_iff _ _ _ hln, hKeys_hRemove, mem_removeOne_iff _ _ _ hkn]
      have hx := hiff x
      tauto
  · exact ⟨hln, hkn, hiff⟩

/-- Every reachable `QLinkedHash` state satisfies the bijection invariant. -/
theorem mapWf_of_reachable (m : QLinkedHash K T) (h : MapReachable m) : MapWf m := by
  induction h with
  | con => exact mapWf_empty
  | ins idx k v _ ih => exact mapWf_insert _ idx k v ih
  | app k v _ ih => exact mapWf_insert _ _ k v ih
  | rmk k _ ih => exact mapWf_remove _ k ih
  | rmi idx _ ih => exact mapWf_removeAt _ idx ih

end QLinkedHash

namespace QLinkedHash

variable {K T : Type} [DecidableEq K] [Inhabited K] [Inhabited T]

theorem getKey_mk (h : List (K × T)) (l : List K) (k : K) :
    getKey ⟨h, l⟩ k = if hContains h k then hGetD h k else default := rfl

theorem indexOf_mk (h : List (K × T)) (l : List K) (k : K) :
    indexOf ⟨h, l⟩ k = qIndexOf l k := rfl

theorem size_mk (h : List (K × T)) (l : List K) : size ⟨h, l⟩ = l.length := rfl

theorem atIdx_mk (h : List (K × T)) (l : List K) (idx : Int) :
    atIdx ⟨h, l⟩ idx =
      if idx < (l.length : Int) ∧ 0 ≤ idx then hGetD h (l.getD idx.toNat default)
      else default := rfl

/-- C1: every state reached from the empty map by `insert`, `append`,
`remove` and `removeAt` keeps `m_list` duplicate-free with exactly the same
key set as `m_hash` (the order/index bijection invariant). -/
theorem c1_order_index_bijection (m : QLinkedHash K T) (h : MapReachable m) :
    m.m_list.Nodup ∧ (hKeys m.m_hash).Nodup ∧
    ∀ k : K, k ∈ m.m_list ↔ k ∈ hKeys m.m_hash :=
  mapWf_of_reachable m h

/-- C1 witness: a concrete mutation sequence mixing all four operations. -/
theorem c1_order_index_bijection_witness :
    ((((empty.append "x" 1).insert 0 "y" 2).remove "x").removeAt 0 :
        QLinkedHash String Nat).m_list.Nodup ∧
    (hKeys ((((empty.append "x" 1).insert 0 "y" 2).remove "x").removeAt 0 :
        QLinkedHash String Nat).m_hash).Nodup ∧
    ∀ k : String,
      k ∈ ((((empty.append "x" 1).insert 0 "y" 2).remove "x").removeAt 0 :
        QLinkedHash String Nat).m_list ↔
      k ∈ hKeys ((((empty.append "x" 1).insert 0 "y" 2).remove "x").removeAt 0 :
        QLinkedHash String Nat).m_hash :=
  c1_order_index_bijection _
    (MapReachable.rmi 0
      (MapReachable.rmk "x"
        (MapReachable.ins 0 "y" 2 (MapReachable.app "x" 1 MapReachable.con))))

/-- C3: `append(k, v)` stores `v` under `k`, puts `k` at the last position,
and is by definition `insert(size(), k, v)` — whether or not `k` was
already present. -/
theorem c3_append_semantics (m : QLinkedHash K T) (k : K) (v : T) (h : MapReachable m) :
    (m.append k v).getKey k = v ∧
    (m.append k v).indexOf k = ((m.append k v).size : Int) - 1 ∧
    m.append k v = m.insert (m.size : Int) k v := by
  obtain ⟨hln, hkn, hiff⟩ := mapWf_of_reachable m h
  have hguard : ((m.size : Int)) ≤ (m.m_list.length : Int) ∧ (0 : Int) ≤ (m.size : Int) := by
    unfold size
    exact ⟨le_refl _, Int.natCast_nonneg _⟩
  have htn : ((m.size : Int)).toNat = m.size := Int.toNat_natCast _
  refine ⟨?_, ?_, rfl⟩
  · unfold append insert
    rw [if_pos hguard, getKey_mk, if_pos (hContains_hInsert_self m.m_hash k v),
      hGetD_hInsert_self]
  · unfold append insert
    rw [if_pos hguard, indexOf_mk, size_mk]
    rw [show ((m.m_list.length : Int)).toNat = m.m_list.length from Int.toNat_natCast _]
    by_cases hc : hContains m.m_hash k = true
    · rw [if_pos hc]
      have hkmem : k ∈ m.m_list := (hiff k).mpr ((hContains_iff _ _).mp hc)
      have hpos : 0 < m.m_list.length := List.length_pos_of_mem hkmem
      have hlen1 : (removeOne m.m_list k).length = m.m_list.length - 1 :=
        length_removeOne_of_mem _ _ hkmem
      have hknotin : k ∉ removeOne m.m_list k := not_mem_removeOne_self _ _ hln
      have hle : (removeOne m.m_list k).length ≤ m.m_list.length := by omega
      have h1 : qIndexOf (qListInsert (removeOne m.m_list k).length k
          (removeOne m.m_list k)) k = ((removeOne m.m_list k).length : Int) :=
        qIndexOf_qListInsert _ _ _ hknotin (le_refl _)
      rw [qListInsert_of_le _ _ _ (le_refl _)] at h1
      rw [qListInsert_of_le _ _ _ hle, h1]
      simp only [size_mk, List.length_append, List.length_singleton]
      push_cast
      ring
    · rw [if_neg hc]
      have hknotin : k ∉ m.m_list := fun hk =>
        hc ((hContains_iff _ _).mpr ((hiff k).mp hk))
      have h1 : qIndexOf (qListInsert m.m_list.length k m.m_list) k =
          (m.m_list.length : Int) :=
        qIndexOf_qListInsert _ _ _ hknotin (le_refl m.m_list.length)
      rw [h1]
      simp only [size_mk, length_qListInsert]
      push_cast
      ring

/-- C3 witness: re-appending the existing key of a one-entry map. -/
theorem c3_append_semantics_witness :
    ((empty.append "x" 1 : QLinkedHash String Nat).append "x" 5).getKey "x" = 5 ∧
    ((empty.append "x" 1 : QLinkedHash String Nat).append "x" 5).indexOf "x" =
      ((((empty.append "x" 1 : QLinkedHash String Nat).append "x" 5).size : Int)) - 1 ∧
    (empty.append "x" 1 : QLinkedHash String Nat).append "x" 5 =
      (empty.append "x" 1 : QLinkedHash String Nat).insert
        (((empty.append "x" 1 : QLinkedHash String Nat).size : Int)) "x" 5 :=
  c3_append_semantics (empty.append "x" 1) "x" 5 (MapReachable.app "x" 1 MapReachable.con)

end QLinkedHash

namespace QLinkedHash

variable {K T : Type} [DecidableEq K] [Inhabited K] [Inhabited T]

/-- C4 as stated is false at `idx = size()`: the guard admits `idx = size()`,
but after the existing entry is detached the order sequence is one shorter,
so the (clamping) list insertion appends at position `size()-1`, not `idx`:
`at(idx)` is out of range and `indexOf(k) = size()-1 ≠ idx`. -/
theorem c4_counterexample :
    (2 : Int) ≤ (((empty.append "x" 1).append "y" 2 : QLinkedHash String Nat).size : Int) ∧
    hContains ((empty.append "x" 1).append "y" 2 : QLinkedHash String Nat).m_hash "x" = true ∧
    ((empty.append "x" 1).append "y" 2 : QLinkedHash String Nat).indexOf "x" ≠ (2 : Int) ∧
    ¬ ((((empty.append "x" 1).append "y" 2 : QLinkedHash String Nat).insert 2 "x" 9).atIdx 2 = 9 ∧
       (((empty.append "x" 1).append "y" 2 : QLinkedHash String Nat).insert 2 "x" 9).indexOf "x" =
         (2 : Int)) := by
  decide

/-- C4 (amended): for `idx` in `[0, size())` — the endpoint `idx = size()`
excluded — inserting an already-present key `k` at `idx` keeps `size()`
unchanged, makes `at(idx)` return `v`, and makes `indexOf(k)` equal `idx`. -/
theorem c4_insertAt_existing_key_moves (m : QLinkedHash K T) (idx : Nat) (k : K) (v : T)
    (h : MapReachable m) (hidx : idx < m.size) (hk : k ∈ m.m_list)
    (hdiff : m.indexOf k ≠ (idx : Int)) :
    (m.insert (idx : Int) k v).size = m.size ∧
    (m.insert (idx : Int) k v).atIdx (idx : Int) = v ∧
    (m.insert (idx : Int) k v).indexOf k = (idx : Int) := by
  obtain ⟨hln, hkn, hiff⟩ := mapWf_of_reachable m h
  have hidx' : idx < m.m_list.length := hidx
  have hc : hContains m.m_hash k = true := (hContains_iff _ _).mpr ((hiff k).mp hk)
  have hguard : ((idx : Int)) ≤ (m.m_list.length : Int) ∧ (0 : Int) ≤ (idx : Int) := by
    constructor
    · exact_mod_cast Nat.le_of_lt hidx'
    · exact Int.natCast_nonneg _
  have hpos : 0 < m.m_list.length := List.length_pos_of_mem hk
  have hlen1 : (removeOne m.m_list k).length = m.m_list.length - 1 :=
    length_removeOne_of_mem _ _ hk
  have hknotin : k ∉ removeOne m.m_list k := not_mem_removeOne_self _ _ hln
  have hile : idx ≤ (removeOne m.m_list k).length := by omega
  unfold insert
  rw [if_pos hguard, if_pos hc]
  rw [show ((idx : Int)).toNat = idx from Int.toNat_natCast _]
  refine ⟨?_, ?_, ?_⟩
  · simp only [size_mk, length_qListInsert]
    show (removeOne m.m_list k).length + 1 = m.m_list.length
    omega
  · rw [atIdx_mk]
    have hlt2 : ((idx : Int)) < ((qListInsert idx k (removeOne m.m_list k)).length : Int) := by
      rw [length_qListInsert]
      push_cast
      omega
    rw [if_pos ⟨hlt2, Int.natCast_nonneg _⟩]
    rw [show ((idx : Int)).toNat = idx from Int.toNat_natCast _]
    rw [getD_qListInsert _ _ _ hile]
    exact hGetD_hInsert_self _ _ _
  · rw [indexOf_mk]
    exact qIndexOf_qListInsert idx k _ hknotin hile

/-- C4 witness (amended statement): two-entry map, moving key `"y"` from
position 1 to position 0 with a new value. -/
theorem c4_insertAt_existing_key_moves_witness :
    (0 < ((empty.append "x" 1).append "y" 2 : QLinkedHash String Nat).size ∧
      "y" ∈ ((empty.append "x" 1).append "y" 2 : QLinkedHash String Nat).m_list ∧
      ((empty.append "x" 1).append "y" 2 : QLinkedHash String Nat).indexOf "y" ≠ (0 : Int)) ∧
    ((((empty.append "x" 1).append "y" 2 : QLinkedHash String Nat).insert 0 "y" 9).size =
        ((empty.append "x" 1).append "y" 2 : QLinkedHash String Nat).size ∧
      (((empty.append "x" 1).append "y" 2 : QLinkedHash String Nat).insert 0 "y" 9).atIdx 0 = 9 ∧
      (((empty.append "x" 1).append "y" 2 : QLinkedHash String Nat).insert 0 "y" 9).indexOf "y" =
        (0 : Int)) :=
  ⟨⟨by decide, by decide, by decide⟩,
    c4_insertAt_existing_key_moves ((empty.append "x" 1).append "y" 2) 0 "y" 9
      (MapReachable.app "y" 2 (MapReachable.app "x" 1 MapReachable.con))
      (by decide) (by decide) (by decide)⟩

/-- C8: soft-fail accessors — positional access outside `[0, size())` and
key access with an absent key both return a default-constructed value; in
this pure embedding both accessors are read-only functions of the map, so
no error is signalled and no entry is created. -/
theorem c8_soft_fail_accessors (m : QLinkedHash K T) (idx : Int) (k : K) :
    ((idx < 0 ∨ (m.size : Int) ≤ idx) → m.atIdx idx = default) ∧
    (k ∉ hKeys m.m_hash → m.getKey k = default) := by
  constructor
  · intro hout
    have hng : ¬ (idx < (m.m_list.length : Int) ∧ 0 ≤ idx) := by
      unfold size at hout
      rintro ⟨h1, h2⟩
      omega
    simp [atIdx, hng]
  · intro habs
    have hnc : ¬ hContains m.m_hash k = true := fun hcc =>
      habs ((hContains_iff _ _).mp hcc)
    simp [getKey, hnc]

/-- C8 witness: index 5 and key `"z"` on a one-entry map. -/
theorem c8_soft_fail_accessors_witness :
    (((5 : Int) < 0 ∨ ((empty.append "x" 1 : QLinkedHash String Nat).size : Int) ≤ 5) ∧
      (empty.append "x" 1 : QLinkedHash String Nat).atIdx 5 = default) ∧
    ("z" ∉ hKeys (empty.append "x" 1 : QLinkedHash String Nat).m_hash ∧
      (empty.append "x" 1 : QLinkedHash String Nat).getKey "z" = default) :=
  ⟨⟨by decide,
      (c8_soft_fail_accessors (empty.append "x" 1) 5 "z").1 (by decide)⟩,
    ⟨by decide,
      (c8_soft_fail_accessors (empty.append "x" 1) 5 "z").2 (by decide)⟩⟩

end QLinkedHash
